import Mathlib

/-!
# Bertrand oligopoly game: shallow embedding and verification

A shallow embedding of the Bertrand-oligopoly simultaneous-move game
(`bertrand_oligopoly.cc` / `bertrand_oligopoly.h`): the price geometry, the
logit demand / payoff model, the state machine driven by `DoApplyActions`,
the returns computation, and the tensor-writing observer.  C++ `double`
arithmetic is modelled over `ℝ`; C++ `int`/`Action` values over `ℤ`/`ℕ`.
The implicit `double → int` conversion (truncation toward zero) that the
source performs in its winner-determination loop is modelled faithfully
by `trunc`.
-/

namespace BertrandOligopoly

/-- The `returns_type` parameter (`ReturnsType` enum in the header). -/
inductive ReturnsType
  | winLoss
  | pointDifference
  | totalPoints
deriving DecidableEq

/-- Game configuration: the validated parameters of `BertrandOligopolyGame`
(`num_options`, `num_turns`, `interval_size`, `marginal_cost`,
`horizontal_differentiation`, `outside_good`, `players`, `returns_type`,
`imp_info`, `egocentric`).  Integral C++ parameters (`int`) whose valid
values are non-negative are carried as `ℕ`; `marginal_cost` and
`outside_good` are `int`s used in real arithmetic and are carried as `ℤ`. -/
structure Config where
  numPlayers : ℕ
  numOptions : ℕ
  numTurns : ℕ
  intervalSize : ℝ
  marginalCost : ℤ
  horizontalDifferentiation : ℝ
  outsideGood : ℤ
  returnsType : ReturnsType
  impInfo : Bool
  egocentric : Bool

/-- `nash_price_ = 1.47292` (hard-coded approximation in the source). -/
noncomputable def nashPrice : ℝ := 1.47292

/-- `monopoly_price_ = 1.92498` (hard-coded approximation in the source). -/
noncomputable def monopolyPrice : ℝ := 1.92498

/-- `interval_.first = nash_price_ - interval_size_ * (monopoly_price_ - nash_price_)`. -/
noncomputable def intervalFirst (g : Config) : ℝ :=
  nashPrice - g.intervalSize * (monopolyPrice - nashPrice)

/-- `interval_.second = monopoly_price_ + interval_size_ * (monopoly_price_ - nash_price_)`. -/
noncomputable def intervalSecond (g : Config) : ℝ :=
  monopolyPrice + g.intervalSize * (monopolyPrice - nashPrice)

/-- `step_size_ = (interval_.second - interval_.first) / (num_options_ - 1)`;
`num_options_ - 1` is C++ `int` arithmetic, exact on `ℕ` since the
constructor checks `num_options_ > 1`. -/
noncomputable def stepSize (g : Config) : ℝ :=
  (intervalSecond g - intervalFirst g) / ((g.numOptions - 1 : ℕ) : ℝ)

/-- `price = (actions[p] * step_size_) + interval_.first`. -/
noncomputable def price (g : Config) (a : ℤ) : ℝ :=
  (a : ℝ) * stepSize g + intervalFirst g

/-- `vertical_differentiation_`: every entry is filled with `2.0` in the
state constructor ("no vertical differentiation"). -/
noncomputable def verticalDifferentiation (_p : ℕ) : ℝ := 2

/-- `demand_denominator`: `exp(outside_good_ / horizontal_differentiation_)`
plus, for each `p < actions.size()`,
`exp((vertical_differentiation_[p] - price_p) / horizontal_differentiation_)`. -/
noncomputable def demandDenominator (g : Config) (as : List ℤ) : ℝ :=
  Real.exp ((g.outsideGood : ℝ) / g.horizontalDifferentiation) +
    ((List.range as.length).map fun p =>
      Real.exp ((verticalDifferentiation p - price g (as.getD p 0)) /
        g.horizontalDifferentiation)).sum

/-- `net_profit_[p] = ((price - marginal_cost_) * exp((vertical_differentiation_[p]
- price) / horizontal_differentiation_)) / demand_denominator`. -/
noncomputable def roundProfit (g : Config) (as : List ℤ) (p : ℕ) : ℝ :=
  (price g (as.getD p 0) - (g.marginalCost : ℝ)) *
    Real.exp ((verticalDifferentiation p - price g (as.getD p 0)) /
      g.horizontalDifferentiation) / demandDenominator g as

/-- The mutable fields of `BertrandOligopolyState` that the claims are about:
`current_turn_`, the terminal flag (`current_player_ == kTerminalPlayerId`),
`points_`, `net_profit_`, `win_sequence_` (entry `none` models
`kInvalidPlayer`), `actions_history_`, `winners_`. -/
structure GState where
  currentTurn : ℕ
  terminal : Bool
  points : List ℝ
  netProfitLast : List ℝ
  winSequence : List (Option ℕ)
  actionsHistory : List (List ℤ)
  winners : Finset ℕ

/-- The state built by the `BertrandOligopolyState` constructor: zeroed
points and profits, empty histories, round 0, simultaneous (non-terminal)
player. -/
noncomputable def initialState (g : Config) : GState :=
  { currentTurn := 0
    terminal := false
    points := List.replicate g.numPlayers 0
    netProfitLast := List.replicate g.numPlayers 0
    winSequence := []
    actionsHistory := []
    winners := ∅ }

/-- The validity checks at the top of `DoApplyActions`:
`SPIEL_CHECK_EQ(actions.size(), num_players_)` and, for every entry,
`SPIEL_CHECK_GE(action, 0)` and `SPIEL_CHECK_LT(action, num_options_)`. -/
def validActions (g : Config) (as : List ℤ) : Prop :=
  as.length = g.numPlayers ∧ ∀ a ∈ as, 0 ≤ a ∧ a < (g.numOptions : ℤ)

instance (g : Config) (as : List ℤ) : Decidable (validActions g as) := by
  unfold validActions; infer_instance

/-- `INT_MAX`, the initial value of `min_price` in the lowest-price scan. -/
def intMax : ℤ := 2147483647

/-- The lowest-price scan of `DoApplyActions`: carries
`(min_price, num_min_prices, min_actor)` and the index `p` of the next
element, updating per the three branches of the C++ loop. -/
def minScan : List ℤ → ℤ → ℕ → ℕ → ℕ → ℤ × ℕ × ℕ
  | [], minP, cnt, minA, _ => (minP, cnt, minA)
  | a :: rest, minP, cnt, minA, p =>
    if a < minP then minScan rest a 1 p (p + 1)
    else if a = minP then minScan rest minP (cnt + 1) minA (p + 1)
    else minScan rest minP cnt minA (p + 1)

/-- The entry `DoApplyActions` pushes onto `win_sequence_`: `min_actor`
when exactly one player attains the minimum price, `kInvalidPlayer`
(modelled `none`) otherwise. -/
def winnerOfRound (as : List ℤ) : Option ℕ :=
  let r := minScan as intMax 0 0 0
  if r.2.1 = 1 then some r.2.2 else none

/-- C++ `double`-to-`int` conversion: truncation toward zero. -/
noncomputable def trunc (x : ℝ) : ℤ := if 0 ≤ x then ⌊x⌋ else ⌈x⌉

/-- The winner-determination loop run when `current_turn_ == num_turns_`:
`max_points` is an `int` (so assigning `points_[p]` to it truncates),
while the comparisons promote it back to `double`. -/
noncomputable def winnersLoop : List ℝ → ℕ → ℤ → Finset ℕ → Finset ℕ
  | [], _, _, w => w
  | q :: rest, p, maxP, w =>
    if (maxP : ℝ) < q then winnersLoop rest (p + 1) (trunc q) {p}
    else if q = (maxP : ℝ) then winnersLoop rest (p + 1) maxP (insert p w)
    else winnersLoop rest (p + 1) maxP w

/-- `winners_` as computed by the terminal branch of `DoApplyActions`,
starting from `max_points = -1` and an empty set. -/
noncomputable def computeWinners (pts : List ℝ) : Finset ℕ :=
  winnersLoop pts 0 (-1) ∅

/-- The payout loop `points_[p] += net_profit_[p]`, indexed from `k`. -/
noncomputable def addProfits (g : Config) (as : List ℤ) : ℕ → List ℝ → List ℝ
  | _, [] => []
  | k, q :: rest => (q + roundProfit g as k) :: addProfits g as (k + 1) rest

/-- The mutation performed by `DoApplyActions` after its validity checks:
win detection, payouts, history append, turn advance, and — exactly when
the incremented turn equals `num_turns_` — winner determination and the
transition to the terminal player. -/
noncomputable def applyStep (g : Config) (st : GState) (as : List ℤ) : GState :=
  { currentTurn := st.currentTurn + 1
    terminal := if st.currentTurn + 1 = g.numTurns then true else st.terminal
    points := addProfits g as 0 st.points
    netProfitLast := (List.range as.length).map (roundProfit g as)
    winSequence := st.winSequence ++ [winnerOfRound as]
    actionsHistory := st.actionsHistory ++ [as]
    winners := if st.currentTurn + 1 = g.numTurns then
                 computeWinners (addProfits g as 0 st.points)
               else st.winners }

/-- `DoApplyActions`: the `SPIEL_CHECK` validation precedes every side
effect, so an invalid joint action aborts (`none`) with the state
untouched. -/
noncomputable def doApplyActions (g : Config) (st : GState) (as : List ℤ) :
    Option GState :=
  if validActions g as then some (applyStep g st as) else none

/-- States visited by a legal run: the driver starts at `initialState` and
only applies joint actions while the state is non-terminal (at a terminal
state `LegalActions` is empty). -/
inductive Reachable (g : Config) : GState → Prop
  | init : Reachable g (initialState g)
  | step {st st' : GState} {as : List ℤ} :
      Reachable g st → st.terminal = false →
      doApplyActions g st as = some st' → Reachable g st'

/-- `Returns()`: the zero vector off-terminal; otherwise the three
returns-type branches of the source. -/
noncomputable def returnsOf (g : Config) (st : GState) : List ℝ :=
  if st.terminal = false then List.replicate g.numPlayers 0
  else
    match g.returnsType with
    | ReturnsType.winLoss =>
        if st.winners.card = g.numPlayers then List.replicate g.numPlayers 0
        else
          (List.range g.numPlayers).map fun p =>
            if p ∈ st.winners then 1 / (st.winners.card : ℝ)
            else -1 / ((g.numPlayers : ℝ) - (st.winners.card : ℝ))
    | ReturnsType.pointDifference =>
        (List.range g.numPlayers).map fun p =>
          st.points.getD p 0 -
            ((List.range g.numPlayers).map fun q => st.points.getD q 0).sum /
              (g.numPlayers : ℝ)
    | ReturnsType.totalPoints =>
        (List.range g.numPlayers).map fun p => st.points.getD p 0

/-- An `IIGObservationType`: `public_info`, `perfect_recall`, and whether
`private_info == kSinglePlayer`. -/
structure IIGObsType where
  publicInfo : Bool
  perfectRecall : Bool
  privateSingle : Bool

/-- `kInfoStateObsType`: public info, perfect recall, single-player
private info. -/
def infoStateObsType : IIGObsType := ⟨true, true, true⟩

/-- The named blocks, with their declared shapes, that
`BertrandOligopolyObserver::WriteTensor` allocates and writes:
`point_totals` whenever `pub_info`, `win_sequence` when
`imp_info && pub_info`, `player_action_sequence` when
`imp_info && perf_rec && priv_one`. -/
def writeBlocks (g : Config) (ot : IIGObsType) : List (String × List ℕ) :=
  (if ot.publicInfo then [("point_totals", [g.numPlayers])] else []) ++
    (if g.impInfo && ot.publicInfo then
      [("win_sequence", [g.numTurns, g.numPlayers])] else []) ++
    (if g.impInfo && ot.perfectRecall && ot.privateSingle then
      [("player_action_sequence", [g.numTurns, g.numOptions])] else [])

/-- Total number of tensor entries the observer writes: the product of the
dimensions of each written block. -/
def writtenSize (g : Config) (ot : IIGObsType) : ℕ :=
  ((writeBlocks g ot).map fun b => b.2.prod).sum

/-- `BertrandOligopolyGame::InformationStateTensorShape()`:
`{num_players_ * num_options_}`. -/
def informationStateTensorShape (g : Config) : List ℕ :=
  [g.numPlayers * g.numOptions]

/-- The cell `(i, one_hot)` written by
`BertrandOligopolyObserver::WriteWinSequence`: rows past the played rounds
and tie rounds stay zero; a row with winner `w` holds a single `1.0` at
column `w`, or at the egocentric rotation
`(num_players + w - player) % num_players`. -/
noncomputable def winSeqCell (g : Config) (st : GState) (player i j : ℕ) : ℝ :=
  match st.winSequence.getD i none with
  | none => 0
  | some w =>
      if j = (if g.egocentric then (g.numPlayers + w - player) % g.numPlayers
              else w) then 1 else 0

/-- The default game configuration (`kDefaultNumPlayers = 2`,
`kDefaultNumOptions = 15`, `kDefaultNumTurns = 100`, etc.). -/
noncomputable def defaultConfig : Config :=
  { numPlayers := 2
    numOptions := 15
    numTurns := 100
    intervalSize := 0.1
    marginalCost := 1
    horizontalDifferentiation := 0.25
    outsideGood := 0
    returnsType := ReturnsType.totalPoints
    impInfo := false
    egocentric := false }

/-- The default configuration shortened to a single turn. -/
noncomputable def cfgOneTurn : Config :=
  { defaultConfig with numTurns := 1 }

/-- Index of the first occurrence of `m` in a list. -/
def idxOf (m : ℤ) : List ℤ → ℕ
  | [] => 0
  | a :: rest => if a = m then 0 else idxOf m rest + 1

theorem doApplyActions_some {g : Config} {st st' : GState} {as : List ℤ}
    (h : doApplyActions g st as = some st') :
    validActions g as ∧ st' = applyStep g st as := by
  unfold doApplyActions at h
  split at h
  · exact ⟨by assumption, (Option.some_injective _ h).symm⟩
  · exact absurd h (by simp)

theorem addProfits_length (g : Config) (as : List ℤ) :
    ∀ (k : ℕ) (pts : List ℝ), (addProfits g as k pts).length = pts.length := by
  intro k pts
  induction pts generalizing k with
  | nil => rfl
  | cons q rest ih => simp [addProfits, ih]

theorem addProfits_getD (g : Config) (as : List ℤ) :
    ∀ (pts : List ℝ) (k p : ℕ), p < pts.length →
      (addProfits g as k pts).getD p 0 = pts.getD p 0 + roundProfit g as (k + p) := by
  intro pts
  induction pts with
  | nil => intro k p h; exact absurd h (by simp)
  | cons q rest ih =>
    intro k p h
    cases p with
    | zero => simp [addProfits]
    | succ p' =>
      have hp' : p' < rest.length := by simpa using h
      have := ih (k + 1) p' hp'
      simpa [addProfits, Nat.add_assoc, Nat.add_comm 1 p'] using this

theorem range_map_getD (f : ℕ → ℝ) (n p : ℕ) (h : p < n) :
    ((List.range n).map f).getD p 0 = f p := by
  rw [List.getD_eq_getElem?_getD, List.getElem?_map, List.getElem?_range h]
  rfl

theorem getD_mem (l : List ℤ) (q : ℕ) (h : q < l.length) : l.getD q 0 ∈ l := by
  induction l generalizing q with
  | nil => exact absurd h (by simp)
  | cons a rest ih =>
    cases q with
    | zero => simp
    | succ q' =>
      have : q' < rest.length := by simpa using h
      simpa using Or.inr (ih q' this)

theorem minScan_at (as : List ℤ) :
    ∀ (minP : ℤ) (cnt minA p : ℕ), (∀ a ∈ as, minP ≤ a) →
      minScan as minP cnt minA p = (minP, cnt + as.count minP, minA) := by
  induction as with
  | nil => intro minP cnt minA p _; simp [minScan]
  | cons a rest ih =>
    intro minP cnt minA p h
    have ha : minP ≤ a := h a (by simp)
    have hrest : ∀ b ∈ rest, minP ≤ b := fun b hb => h b (by simp [hb])
    rw [minScan, if_neg (not_lt.mpr ha)]
    by_cases hae : a = minP
    · rw [if_pos hae, ih minP (cnt + 1) minA (p + 1) hrest]
      have : (a :: rest).count minP = rest.count minP + 1 := by
        simp [List.count_cons, hae]
      rw [this]
      exact congrArg (fun c => ((minP : ℤ), c, minA)) (by omega)
    · rw [if_neg hae, ih minP cnt minA (p + 1) hrest]
      have : (a :: rest).count minP = rest.count minP := by
        simp [List.count_cons, hae]
      rw [this]

theorem minScan_below (as : List ℤ) :
    ∀ (minP : ℤ) (cnt minA p : ℕ) (m : ℤ), m ∈ as → (∀ a ∈ as, m ≤ a) →
      m < minP →
      minScan as minP cnt minA p = (m, as.count m, p + idxOf m as) := by
  induction as with
  | nil => intro _ _ _ _ m hm; exact absurd hm (by simp)
  | cons a rest ih =>
    intro minP cnt minA p m hm hle hlt
    have hrest : ∀ b ∈ rest, m ≤ b := fun b hb => hle b (by simp [hb])
    by_cases hae : a = m
    · subst hae
      rw [minScan, if_pos hlt, minScan_at rest a 1 p (p + 1) hrest]
      have hcnt : (a :: rest).count a = rest.count a + 1 := by
        simp [List.count_cons]
      rw [hcnt, idxOf, if_pos rfl]
      exact congrArg (fun c => ((a : ℤ), c, p)) (by omega)
    · have hma : m < a := lt_of_le_of_ne (hle a (by simp)) (fun h => hae h.symm)
      have hmr : m ∈ rest := by
        rcases List.mem_cons.mp hm with h | h
        · exact absurd h.symm hae
        · exact h
      have hcnt : (a :: rest).count m = rest.count m := by
        simp [List.count_cons, hae]
      have hidx : idxOf m (a :: rest) = idxOf m rest + 1 := by
        rw [idxOf, if_neg hae]
      rw [hcnt, hidx]
      rw [minScan]
      by_cases h1 : a < minP
      · rw [if_pos h1, ih a 1 p (p + 1) m hmr hrest hma]
        exact congrArg (fun j => ((m : ℤ), rest.count m, j)) (by omega)
      · rw [if_neg h1]
        by_cases h2 : a = minP
        · rw [if_pos h2, ih minP (cnt + 1) minA (p + 1) m hmr hrest hlt]
          exact congrArg (fun j => ((m : ℤ), rest.count m, j)) (by omega)
        · rw [if_neg h2, ih minP cnt minA (p + 1) m hmr hrest hlt]
          exact congrArg (fun j => ((m : ℤ), rest.count m, j)) (by omega)

theorem minScan_actor (as : List ℤ) :
    ∀ (minP : ℤ) (cnt minA p : ℕ),
      (minScan as minP cnt minA p).2.2 = minA ∨
        ∃ i, i < as.length ∧ (minScan as minP cnt minA p).2.2 = p + i := by
  induction as with
  | nil => intro minP cnt minA p; left; rfl
  | cons a rest ih =>
    intro minP cnt minA p
    rw [minScan]
    by_cases h1 : a < minP
    · rw [if_pos h1]
      rcases ih a 1 p (p + 1) with h | ⟨i, hi, h⟩
      · right; exact ⟨0, by simp, by simpa using h⟩
      · right; exact ⟨i + 1, by simp; omega, by omega⟩
    · rw [if_neg h1]
      by_cases h2 : a = minP
      · rw [if_pos h2]
        rcases ih minP (cnt + 1) minA (p + 1) with h | ⟨i, hi, h⟩
        · left; exact h
        · right; exact ⟨i + 1, by simp; omega, by omega⟩
      · rw [if_neg h2]
        rcases ih minP cnt minA (p + 1) with h | ⟨i, hi, h⟩
        · left; exact h
        · right; exact ⟨i + 1, by simp; omega, by omega⟩

theorem winnerOfRound_lt (as : List ℤ) (w : ℕ)
    (h : winnerOfRound as = some w) : w < as.length := by
  cases as with
  | nil => exact absurd h (by simp [winnerOfRound, minScan])
  | cons a rest =>
    unfold winnerOfRound at h
    by_cases hc : (minScan (a :: rest) intMax 0 0 0).2.1 = 1
    · simp only [hc, if_pos] at h
      have hw : (minScan (a :: rest) intMax 0 0 0).2.2 = w :=
        Option.some_injective _ h
      rcases minScan_actor (a :: rest) intMax 0 0 0 with h0 | ⟨i, hi, h0⟩
      · rw [h0] at hw
        simp only [List.length_cons]
        omega
      · rw [h0] at hw
        simp only [List.length_cons] at hi ⊢
        omega
    · simp [hc] at h

theorem count_one_index_unique (as : List ℤ) :
    ∀ (m : ℤ) (p : ℕ), as.count m = 1 → p < as.length → as.getD p 0 = m →
      p = idxOf m as := by
  induction as with
  | nil => intro m p _ h; exact absurd h (by simp)
  | cons a rest ih =>
    intro m p hcnt hp hval
    by_cases hae : a = m
    · have hr0 : rest.count m = 0 := by
        have : (a :: rest).count m = rest.count m + 1 := by
          simp [List.count_cons, hae]
        omega
      rw [idxOf, if_pos hae]
      cases p with
      | zero => rfl
      | succ q =>
        have hq : q < rest.length := by simpa using hp
        have hmem : m ∈ rest := by
          have := getD_mem rest q hq
          rwa [show rest.getD q 0 = m from by simpa using hval] at this
        have : rest.count m ≠ 0 := by
          simpa [List.count_eq_zero] using hmem
        omega
    · have hcr : rest.count m = 1 := by
        have : (a :: rest).count m = rest.count m := by
          simp [List.count_cons, hae]
        omega
      rw [idxOf, if_neg hae]
      cases p with
      | zero => exact absurd (by simpa using hval) hae
      | succ q =>
        have hq : q < rest.length := by simpa using hp
        have : q = idxOf m rest := ih m q hcr hq (by simpa using hval)
        omega

theorem trunc_eq_zero (q : ℝ) (h0 : 0 ≤ q) (h1 : q < 1) : trunc q = 0 := by
  unfold trunc
  rw [if_pos h0]
  exact Int.floor_eq_zero_iff.mpr ⟨h0, h1⟩

theorem computeWinners_pair (q : ℝ) (h0 : 0 < q) (h1 : q < 1) :
    computeWinners [q, q] = {1} := by
  have ht : trunc q = 0 := trunc_eq_zero q h0.le h1
  have hneg : ((-1 : ℤ) : ℝ) < q := by push_cast; linarith
  have hzero : ((0 : ℤ) : ℝ) < q := by push_cast; linarith
  unfold computeWinners
  rw [winnersLoop, if_pos hneg, ht, winnersLoop, if_pos hzero, winnersLoop]

theorem reachable_lengths {g : Config} {st : GState} (h : Reachable g st) :
    st.winSequence.length = st.currentTurn ∧
      st.actionsHistory.length = st.currentTurn ∧
      st.points.length = g.numPlayers := by
  induction h with
  | init => simp [initialState]
  | step hr hterm happ ih =>
    obtain ⟨hv, hst⟩ := doApplyActions_some happ
    subst hst
    refine ⟨?_, ?_, ?_⟩
    · simp [applyStep, ih.1]
    · simp [applyStep, ih.2.1]
    · simp [applyStep, addProfits_length, ih.2.2]

theorem reachable_terminal_iff {g : Config} {st : GState}
    (hNT : 1 ≤ g.numTurns) (h : Reachable g st) :
    st.terminal = true ↔ st.currentTurn = g.numTurns := by
  induction h with
  | init =>
    simp only [initialState]
    constructor
    · intro hh; exact absurd hh (by simp)
    · intro hh; omega
  | @step st st' as hr hterm happ ih =>
    obtain ⟨hv, hst⟩ := doApplyActions_some happ
    subst hst
    simp only [applyStep]
    by_cases hc : st.currentTurn + 1 = g.numTurns
    · simp [hc]
    · simp only [if_neg hc, hterm]
      constructor
      · intro hfalse; exact absurd hfalse (by simp)
      · intro hh; exact absurd hh hc

theorem reachable_winseq_bound {g : Config} {st : GState} (h : Reachable g st) :
    ∀ e ∈ st.winSequence, ∀ w, e = some w → w < g.numPlayers := by
  induction h with
  | init => simp [initialState]
  | @step st st' as hr hterm happ ih =>
    obtain ⟨hv, hst⟩ := doApplyActions_some happ
    subst hst
    intro e he w hew
    simp only [applyStep, List.mem_append, List.mem_singleton] at he
    rcases he with he | he
    · exact ih e he w hew
    · subst he
      have := winnerOfRound_lt as w hew
      rw [hv.1] at this
      exact this

theorem price_zero_sub_cost_bounds :
    0 < price cfgOneTurn 0 - ((cfgOneTurn.marginalCost : ℤ) : ℝ) ∧
      price cfgOneTurn 0 - ((cfgOneTurn.marginalCost : ℤ) : ℝ) < 1 := by
  simp only [price, intervalFirst, nashPrice, monopolyPrice, cfgOneTurn,
    defaultConfig]
  norm_num

theorem roundProfit_pair_symm :
    roundProfit cfgOneTurn [0, 0] 1 = roundProfit cfgOneTurn [0, 0] 0 := rfl

theorem roundProfit_pair_bounds :
    0 < roundProfit cfgOneTurn [0, 0] 0 ∧ roundProfit cfgOneTurn [0, 0] 0 < 1 := by
  have hc := price_zero_sub_cost_bounds
  have hq : roundProfit cfgOneTurn [0, 0] 0 =
      (price cfgOneTurn 0 - ((cfgOneTurn.marginalCost : ℤ) : ℝ)) *
        Real.exp ((verticalDifferentiation 0 - price cfgOneTurn 0) /
          cfgOneTurn.horizontalDifferentiation) /
        demandDenominator cfgOneTurn [0, 0] := rfl
  have hD : demandDenominator cfgOneTurn [0, 0] =
      Real.exp (((cfgOneTurn.outsideGood : ℤ) : ℝ) /
          cfgOneTurn.horizontalDifferentiation) +
        (Real.exp ((verticalDifferentiation 0 - price cfgOneTurn 0) /
            cfgOneTurn.horizontalDifferentiation) +
          (Real.exp ((verticalDifferentiation 0 - price cfgOneTurn 0) /
              cfgOneTurn.horizontalDifferentiation) + 0)) := rfl
  have hE : 0 < Real.exp ((verticalDifferentiation 0 - price cfgOneTurn 0) /
      cfgOneTurn.horizontalDifferentiation) := Real.exp_pos _
  have hO : 0 < Real.exp (((cfgOneTurn.outsideGood : ℤ) : ℝ) /
      cfgOneTurn.horizontalDifferentiation) := Real.exp_pos _
  have hD0 : 0 < demandDenominator cfgOneTurn [0, 0] := by
    rw [hD]; linarith
  have hDE : Real.exp ((verticalDifferentiation 0 - price cfgOneTurn 0) /
      cfgOneTurn.horizontalDifferentiation) < demandDenominator cfgOneTurn [0, 0] := by
    rw [hD]; linarith
  constructor
  · rw [hq]
    exact div_pos (mul_pos hc.1 hE) hD0
  · rw [hq, div_lt_one hD0]
    nlinarith

/-- **C1.** The claim states that at the moment `DoApplyActions` makes the
state terminal, `winners` is exactly the non-empty set of players whose
cumulative points are maximal, ties included.  The code is wrong: its
`max_points` accumulator is an `int`, so `max_points = points_[p]`
truncates the `double` score.  Failing input: the default configuration
with `num_turns = 1` and the joint action `[0, 0]` — both players earn the
same strictly positive profit below `1`, so the maximal-points set is
`{0, 1}`, yet the loop (after truncating player 0's score to `0`) clears
the set when it sees player 1's equal score exceed the truncated maximum,
terminating with `winners = {1}`. -/
theorem winners_truncation_bug :
    doApplyActions cfgOneTurn (initialState cfgOneTurn) [0, 0] =
        some (applyStep cfgOneTurn (initialState cfgOneTurn) [0, 0]) ∧
      (applyStep cfgOneTurn (initialState cfgOneTurn) [0, 0]).terminal = true ∧
      (applyStep cfgOneTurn (initialState cfgOneTurn) [0, 0]).points =
        [roundProfit cfgOneTurn [0, 0] 0, roundProfit cfgOneTurn [0, 0] 0] ∧
      0 < roundProfit cfgOneTurn [0, 0] 0 ∧
      (applyStep cfgOneTurn (initialState cfgOneTurn) [0, 0]).winners = {1} := by
  have hb := roundProfit_pair_bounds
  have hadd : addProfits cfgOneTurn [0, 0] 0 (initialState cfgOneTurn).points =
      [roundProfit cfgOneTurn [0, 0] 0, roundProfit cfgOneTurn [0, 0] 0] := by
    have h0 : addProfits cfgOneTurn [0, 0] 0 (initialState cfgOneTurn).points =
        [0 + roundProfit cfgOneTurn [0, 0] 0,
          0 + roundProfit cfgOneTurn [0, 0] 1] := rfl
    rw [h0, roundProfit_pair_symm, zero_add]
  refine ⟨?_, ?_, ?_, hb.1, ?_⟩
  · rw [doApplyActions, if_pos (by decide : validActions cfgOneTurn [0, 0])]
  · decide
  · show addProfits cfgOneTurn [0, 0] 0 (initialState cfgOneTurn).points = _
    exact hadd
  · show (if 0 + 1 = cfgOneTurn.numTurns then
        computeWinners (addProfits cfgOneTurn [0, 0] 0 (initialState cfgOneTurn).points)
      else (initialState cfgOneTurn).winners) = {1}
    rw [if_pos (by decide : 0 + 1 = cfgOneTurn.numTurns), hadd]
    exact computeWinners_pair _ hb.1 hb.2

/-- **C2.** For every valid joint action vector, `DoApplyActions` computes
each player's round profit as
`(price[p] - marginalCost) * exp((vertical[p] - price[p]) / h) / denominator`
with `denominator = exp(outsideGood / h) + Σ_q exp((vertical[q] - price[q]) / h)`,
the vertical differentiation is one neutral constant shared by all players,
the denominator is strictly positive, and the profit is both stored in
`net_profit_` and added to `points_[p]`. -/
theorem profit_formula_correct (g : Config) (st : GState) (as : List ℤ)
    (hlen : st.points.length = g.numPlayers) (hv : validActions g as) :
    doApplyActions g st as = some (applyStep g st as) ∧
      0 < demandDenominator g as ∧
      demandDenominator g as =
        Real.exp ((g.outsideGood : ℝ) / g.horizontalDifferentiation) +
          ((List.range as.length).map fun q =>
            Real.exp ((verticalDifferentiation q - price g (as.getD q 0)) /
              g.horizontalDifferentiation)).sum ∧
      (∀ p q : ℕ, verticalDifferentiation p = verticalDifferentiation q) ∧
      ∀ p : ℕ, p < g.numPlayers →
        (applyStep g st as).netProfitLast.getD p 0 =
          (price g (as.getD p 0) - (g.marginalCost : ℝ)) *
            Real.exp ((verticalDifferentiation p - price g (as.getD p 0)) /
              g.horizontalDifferentiation) / demandDenominator g as ∧
        (applyStep g st as).points.getD p 0 =
          st.points.getD p 0 + roundProfit g as p := by
  refine ⟨?_, ?_, rfl, fun p q => rfl, ?_⟩
  · rw [doApplyActions, if_pos hv]
  · have hsum : 0 ≤ ((List.range as.length).map fun q =>
        Real.exp ((verticalDifferentiation q - price g (as.getD q 0)) /
          g.horizontalDifferentiation)).sum := by
      apply List.sum_nonneg
      intro x hx
      obtain ⟨q, hq, rfl⟩ := List.mem_map.mp hx
      exact (Real.exp_pos _).le
    have hO : 0 < Real.exp ((g.outsideGood : ℝ) / g.horizontalDifferentiation) :=
      Real.exp_pos _
    show 0 < Real.exp ((g.outsideGood : ℝ) / g.horizontalDifferentiation) + _
    linarith
  · intro p hp
    have hp' : p < as.length := by rw [hv.1]; exact hp
    constructor
    · show ((List.range as.length).map (roundProfit g as)).getD p 0 = _
      rw [range_map_getD _ _ _ hp']
      rfl
    · show (addProfits g as 0 st.points).getD p 0 = _
      have := addProfits_getD g as st.points 0 p (by rw [hlen]; exact hp)
      simpa using this

/-- Witness for `profit_formula_correct`: the default one-turn game, joint
action `[0, 0]`. -/
theorem profit_formula_correct_witness :
    0 < demandDenominator cfgOneTurn [0, 0] ∧
      (applyStep cfgOneTurn (initialState cfgOneTurn) [0, 0]).points.getD 0 0 =
        (initialState cfgOneTurn).points.getD 0 0 +
          roundProfit cfgOneTurn [0, 0] 0 := by
  have h := profit_formula_correct cfgOneTurn (initialState cfgOneTurn) [0, 0]
    rfl (by decide)
  exact ⟨h.2.1, (h.2.2.2.2 0 (by decide)).2⟩

/-- The default configuration with the `win_loss` returns type. -/
noncomputable def cfgWinLoss : Config :=
  { defaultConfig with returnsType := ReturnsType.winLoss }

/-- A terminal two-player state in which player 0 alone won. -/
noncomputable def stTermWL : GState :=
  { currentTurn := 1
    terminal := true
    points := [1, 0]
    netProfitLast := [0, 0]
    winSequence := [some 0]
    actionsHistory := [[0, 4]]
    winners := {0} }

/-- **C3.** `Returns()` is the all-zero vector of length `numPlayers` on a
non-terminal state; on a terminal state under `win_loss` it is all-zero
when every player is a winner (complete draw), and otherwise each winner
receives `1 / |winners|` and every other player
`-1 / (numPlayers - |winners|)`. -/
theorem returns_winloss_correct (g : Config) (st : GState) :
    (st.terminal = false → returnsOf g st = List.replicate g.numPlayers 0) ∧
      (st.terminal = true → g.returnsType = ReturnsType.winLoss →
        (st.winners.card = g.numPlayers →
          returnsOf g st = List.replicate g.numPlayers 0) ∧
        (st.winners.card ≠ g.numPlayers →
          (returnsOf g st).length = g.numPlayers ∧
          ∀ p : ℕ, p < g.numPlayers →
            (returnsOf g st).getD p 0 =
              if p ∈ st.winners then 1 / (st.winners.card : ℝ)
              else -1 / ((g.numPlayers : ℝ) - (st.winners.card : ℝ)))) := by
  constructor
  · intro h
    rw [returnsOf, if_pos h]
  · intro hterm htype
    have hnt : ¬ (st.terminal = false) := by rw [hterm]; simp
    constructor
    · intro hcard
      rw [returnsOf, if_neg hnt, htype, if_pos hcard]
    · intro hcard
      rw [returnsOf, if_neg hnt, htype, if_neg hcard]
      constructor
      · simp
      · intro p hp
        exact range_map_getD _ _ _ hp

/-- Witness for `returns_winloss_correct`: two players, winners `{0}`. -/
theorem returns_winloss_correct_witness :
    (returnsOf cfgWinLoss stTermWL).getD 0 0 = 1 ∧
      (returnsOf cfgWinLoss stTermWL).getD 1 0 = -1 := by
  have h := ((returns_winloss_correct cfgWinLoss stTermWL).2 rfl rfl).2
    (by decide)
  have e0 := h.2 0 (by decide)
  have e1 := h.2 1 (by decide)
  rw [if_pos (by decide : (0 : ℕ) ∈ stTermWL.winners)] at e0
  rw [if_neg (by decide : ¬ (1 : ℕ) ∈ stTermWL.winners)] at e1
  rw [show stTermWL.winners.card = 1 from by decide] at e0 e1
  rw [show cfgWinLoss.numPlayers = 2 from rfl] at e1
  norm_num at e0 e1
  exact ⟨e0, e1⟩

/-- The scenario configuration of the claim: `num_options = 5`,
`num_turns = 1`. -/
noncomputable def cfgFive : Config :=
  { defaultConfig with numOptions := 5, numTurns := 1 }

/-- **C4.** Each application appends exactly one entry to `win_sequence_`:
the index of the unique player attaining the minimum action value when
exactly one player attains it, and the NONE marker (`kInvalidPlayer`) when
two or more tie; with `numOptions = 5`, `numTurns = 1` the joint action
`[0, 4]` yields win sequence `[0]` and `[2, 2]` yields `[NONE]`,
independently of profit magnitudes. -/
theorem win_sequence_min_detection (g : Config) (st : GState) (as : List ℤ)
    (m : ℤ) (hv : validActions g as) (hopt : (g.numOptions : ℤ) ≤ intMax)
    (hm : m ∈ as) (hle : ∀ a ∈ as, m ≤ a) :
    doApplyActions g st as = some (applyStep g st as) ∧
      (applyStep g st as).winSequence = st.winSequence ++ [winnerOfRound as] ∧
      (as.count m = 1 → ∀ p : ℕ, p < as.length → as.getD p 0 = m →
        winnerOfRound as = some p) ∧
      (2 ≤ as.count m → winnerOfRound as = none) ∧
      (applyStep cfgFive (initialState cfgFive) [0, 4]).winSequence = [some 0] ∧
      (applyStep cfgFive (initialState cfgFive) [2, 2]).winSequence = [none] := by
  have hmlt : m < intMax := lt_of_lt_of_le (hv.2 m hm).2 hopt
  have hscan := minScan_below as intMax 0 0 0 m hm hle hmlt
  refine ⟨?_, rfl, ?_, ?_, by decide, by decide⟩
  · rw [doApplyActions, if_pos hv]
  · intro hcnt p hp hpm
    have hwin : winnerOfRound as = some (idxOf m as) := by
      show (if (minScan as intMax 0 0 0).2.1 = 1 then
          some (minScan as intMax 0 0 0).2.2 else none) = _
      rw [hscan]
      simp [hcnt]
    rw [hwin, count_one_index_unique as m p hcnt hp hpm]
  · intro hcnt
    show (if (minScan as intMax 0 0 0).2.1 = 1 then
        some (minScan as intMax 0 0 0).2.2 else none) = none
    rw [hscan]
    exact if_neg (by simp; omega)

/-- Witness for `win_sequence_min_detection`: the clear-winner scenario
`[0, 4]`. -/
theorem win_sequence_min_detection_witness :
    winnerOfRound [0, 4] = some 0 ∧
      (applyStep cfgFive (initialState cfgFive) [0, 4]).winSequence =
        [some 0] := by
  have h := win_sequence_min_detection cfgFive (initialState cfgFive) [0, 4] 0
    (by decide) (by decide) (by decide) (by decide)
  exact ⟨h.2.2.1 (by decide) 0 (by decide) (by decide), h.2.2.2.2.1⟩

/-- The default configuration with `num_turns = 0`, accepted by the
constructor (only `num_options > 1` is checked). -/
noncomputable def cfgZeroTurns : Config :=
  { defaultConfig with numTurns := 0 }

/-- **C5 counterexample.** With `num_turns = 0` the fresh initial state
already has `currentRound == numTurns` yet is not terminal, refuting the
claimed equivalence `phase == Terminal ⇔ currentRound == numTurns` for
arbitrary configurations (such a game in fact never terminates). -/
theorem termination_iff_fails_zero_turns :
    (initialState cfgZeroTurns).currentTurn = cfgZeroTurns.numTurns ∧
      ¬ ((initialState cfgZeroTurns).terminal = true ↔
          (initialState cfgZeroTurns).currentTurn = cfgZeroTurns.numTurns) := by
  constructor
  · rfl
  · decide

/-- **C5 (amended: `numTurns ≥ 1`).** Along every legal run of a
configuration with at least one turn, `len(winSequence) =
len(jointActionHistory) = currentRound` and the state is terminal exactly
when `currentRound = numTurns`; hence terminality first becomes true after
exactly `numTurns` applications and was false after every earlier
prefix. -/
theorem run_invariants_correct (g : Config) (st : GState)
    (hNT : 1 ≤ g.numTurns) (h : Reachable g st) :
    st.winSequence.length = st.currentTurn ∧
      st.actionsHistory.length = st.currentTurn ∧
      (st.terminal = true ↔ st.currentTurn = g.numTurns) := by
  have h1 := reachable_lengths h
  have h2 := reachable_terminal_iff hNT h
  exact ⟨h1.1, h1.2.1, h2⟩

/-- Witness for `run_invariants_correct`: the initial state of the
one-turn game. -/
theorem run_invariants_correct_witness :
    (initialState cfgOneTurn).winSequence.length =
        (initialState cfgOneTurn).currentTurn ∧
      (initialState cfgOneTurn).actionsHistory.length =
        (initialState cfgOneTurn).currentTurn ∧
      ((initialState cfgOneTurn).terminal = true ↔
        (initialState cfgOneTurn).currentTurn = cfgOneTurn.numTurns) :=
  run_invariants_correct cfgOneTurn (initialState cfgOneTurn) (by decide)
    Reachable.init

theorem list_sum_sub_const (n : ℕ) (f : ℕ → ℝ) (c : ℝ) :
    ((List.range n).map fun p => f p - c).sum =
      ((List.range n).map f).sum - n * c := by
  induction n with
  | zero => simp
  | succ k ih =>
    rw [List.range_succ]
    simp only [List.map_append, List.sum_append, List.map_cons, List.map_nil,
      List.sum_cons, List.sum_nil, ih]
    push_cast
    ring

theorem map_getD_range_eq_self (l : List ℝ) :
    (List.range l.length).map (fun p => l.getD p 0) = l := by
  apply List.ext_getElem
  · simp
  · intro i h1 h2
    rw [List.getElem_map, List.getElem_range]
    rw [List.getD_eq_getElem?_getD, List.getElem?_eq_getElem h2]
    rfl

/-- The default configuration with the `point_difference` returns type. -/
noncomputable def cfgPointDiff : Config :=
  { defaultConfig with returnsType := ReturnsType.pointDifference }

/-- **C6.** On a terminal state, the `point_difference` returns give every
player `points[p] - mean(points)` and sum to zero, and the `total_points`
returns are exactly the `points` vector. -/
theorem returns_pointdiff_totalpoints_correct (g : Config) (st : GState)
    (hterm : st.terminal = true) :
    (g.returnsType = ReturnsType.pointDifference →
      (∀ p : ℕ, p < g.numPlayers →
        (returnsOf g st).getD p 0 =
          st.points.getD p 0 -
            ((List.range g.numPlayers).map fun q => st.points.getD q 0).sum /
              (g.numPlayers : ℝ)) ∧
      (returnsOf g st).sum = 0) ∧
    (g.returnsType = ReturnsType.totalPoints →
      st.points.length = g.numPlayers → returnsOf g st = st.points) := by
  have hnt : ¬ (st.terminal = false) := by rw [hterm]; simp
  constructor
  · intro htype
    constructor
    · intro p hp
      rw [returnsOf, if_neg hnt, htype]
      exact range_map_getD _ _ _ hp
    · rw [returnsOf, if_neg hnt, htype, list_sum_sub_const]
      by_cases hn : g.numPlayers = 0
      · simp [hn]
      · have hne : (g.numPlayers : ℝ) ≠ 0 := Nat.cast_ne_zero.mpr hn
        rw [mul_comm, div_mul_cancel₀ _ hne, sub_self]
  · intro htype hlen
    rw [returnsOf, if_neg hnt, htype, ← hlen, map_getD_range_eq_self]

/-- Witness for `returns_pointdiff_totalpoints_correct`: a concrete
terminal two-player state under `point_difference`. -/
theorem returns_pointdiff_totalpoints_correct_witness :
    (returnsOf cfgPointDiff stTermWL).sum = 0 := by
  have h := returns_pointdiff_totalpoints_correct cfgPointDiff stTermWL rfl
  exact (h.1 rfl).2

/-- **C7.** `DoApplyActions` aborts fatally exactly when the joint action
vector's length differs from `numPlayers` or some entry lies outside
`[0, numOptions)`, and because the `SPIEL_CHECK` validation precedes every
side effect no field of the state is modified in that case (the model
yields `none` with no partial state). -/
theorem apply_validation_total (g : Config) (st : GState) (as : List ℤ) :
    doApplyActions g st as = none ↔
      (as.length ≠ g.numPlayers ∨ ∃ a ∈ as, a < 0 ∨ (g.numOptions : ℤ) ≤ a) := by
  rw [doApplyActions]
  by_cases hv : validActions g as
  · rw [if_pos hv]
    constructor
    · intro h
      exact absurd h (by simp)
    · intro h
      rcases h with h | ⟨a, ha, h⟩
      · exact absurd hv.1 h
      · rcases h with h | h
        · exact absurd (hv.2 a ha).1 (not_le.mpr h)
        · exact absurd (hv.2 a ha).2 (not_lt.mpr h)
  · rw [if_neg hv]
    constructor
    · intro _
      by_cases hlen : as.length = g.numPlayers
      · right
        have hnall : ¬ ∀ a ∈ as, 0 ≤ a ∧ a < (g.numOptions : ℤ) :=
          fun hall => hv ⟨hlen, hall⟩
        push_neg at hnall
        obtain ⟨a, ha, hcond⟩ := hnall
        refine ⟨a, ha, ?_⟩
        by_cases h0 : 0 ≤ a
        · right
          exact hcond h0
        · left
          exact not_le.mp h0
      · left
        exact hlen
    · intro _
      rfl

theorem getD_none_some_mem (l : List (Option ℕ)) :
    ∀ (i w : ℕ), l.getD i none = some w → some w ∈ l := by
  induction l with
  | nil => intro i w h; exact absurd h (by simp)
  | cons a rest ih =>
    intro i w h
    cases i with
    | zero =>
      rw [List.getD_cons_zero] at h
      rw [h]
      exact List.mem_cons_self _ _
    | succ i' =>
      rw [List.getD_cons_succ] at h
      exact List.mem_cons_of_mem _ (ih i' w h)

/-- The column the winner row's single `1.0` lands in. -/
def winColumn (g : Config) (player w : ℕ) : ℕ :=
  if g.egocentric then (g.numPlayers + w - player) % g.numPlayers else w

/-- **C8.** The `win_sequence` block of shape `[numTurns, numPlayers]` is
written iff `imp_info ∧ public_info`; for a played round `i` with recorded
winner `w ≠ NONE` the row holds a single `1.0`, at column `w`, or at
column `(numPlayers + w - player) % numPlayers` under the egocentric
flag; rows recording a tie stay all-zero. -/
theorem winseq_tensor_correct (g : Config) (st : GState) (player : ℕ)
    (hr : Reachable g st) (_hp : player < g.numPlayers) :
    (∀ ot : IIGObsType,
      ("win_sequence", [g.numTurns, g.numPlayers]) ∈ writeBlocks g ot ↔
        g.impInfo = true ∧ ot.publicInfo = true) ∧
      (∀ i w : ℕ, st.winSequence.getD i none = some w →
        winSeqCell g st player i (winColumn g player w) = 1 ∧
          winColumn g player w =
            (if g.egocentric then (g.numPlayers + w - player) % g.numPlayers
             else w) ∧
          winColumn g player w < g.numPlayers ∧
          ∀ j : ℕ, j ≠ winColumn g player w → winSeqCell g st player i j = 0) ∧
      ∀ i : ℕ, st.winSequence.getD i none = none →
        ∀ j : ℕ, winSeqCell g st player i j = 0 := by
  refine ⟨?_, ?_, ?_⟩
  · intro ot
    rcases ot with ⟨pub, rec, priv⟩
    cases hg : g.impInfo <;> cases pub <;> cases rec <;> cases priv <;>
      simp [writeBlocks, hg]
  · intro i w hw
    have hwlt : w < g.numPlayers :=
      reachable_winseq_bound hr _ (getD_none_some_mem st.winSequence i w hw) w
        rfl
    have hcol : winColumn g player w < g.numPlayers := by
      rw [winColumn]
      by_cases he : g.egocentric
      · rw [if_pos he]
        exact Nat.mod_lt _ (by omega)
      · rw [if_neg he]
        exact hwlt
    refine ⟨?_, rfl, hcol, ?_⟩
    · rw [winSeqCell, hw]
      simp [winColumn]
    · intro j hj
      rw [winSeqCell, hw]
      simp only []
      rw [if_neg]
      rw [winColumn] at hj
      exact hj
  · intro i hi j
    rw [winSeqCell, hi]

/-- Configuration for the egocentric witness: imperfect information,
egocentric rendering, one turn. -/
noncomputable def cfgEgo : Config :=
  { defaultConfig with impInfo := true, egocentric := true, numTurns := 1 }

/-- Witness for `winseq_tensor_correct`: player 1's egocentric view of the
round won by player 0 puts the `1.0` at column `(2 + 0 - 1) % 2 = 1`. -/
theorem winseq_tensor_correct_witness :
    winSeqCell cfgEgo (applyStep cfgEgo (initialState cfgEgo) [0, 1]) 1 0 1 = 1 ∧
      winSeqCell cfgEgo (applyStep cfgEgo (initialState cfgEgo) [0, 1]) 1 0 0 = 0 := by
  have hreach : Reachable cfgEgo (applyStep cfgEgo (initialState cfgEgo) [0, 1]) :=
    Reachable.step Reachable.init rfl
      (by rw [doApplyActions, if_pos (by decide : validActions cfgEgo [0, 1])])
  have h := (winseq_tensor_correct cfgEgo _ 1 hreach (by decide)).2.1 0 0
    (by decide)
  have hcol : winColumn cfgEgo 1 0 = 1 := by decide
  refine ⟨?_, ?_⟩
  · have h1 := h.1
    rwa [hcol] at h1
  · have h0 := h.2.2.2 0 (by rw [hcol]; exact zero_ne_one)
    exact h0

/-- **C9 counterexample.** `DoApplyActions` never checks for terminality:
in the one-turn game the terminal state reached by `[0, 0]` accepts a
further joint action, which appends to `winSequence` (and updates points),
so the claim that no state operation ever changes `winSequence` once
terminal is false. -/
theorem post_terminal_application_mutates :
    (applyStep cfgOneTurn (initialState cfgOneTurn) [0, 0]).terminal = true ∧
      doApplyActions cfgOneTurn
          (applyStep cfgOneTurn (initialState cfgOneTurn) [0, 0]) [0, 0] =
        some (applyStep cfgOneTurn
          (applyStep cfgOneTurn (initialState cfgOneTurn) [0, 0]) [0, 0]) ∧
      (applyStep cfgOneTurn (applyStep cfgOneTurn (initialState cfgOneTurn)
          [0, 0]) [0, 0]).winSequence = [none, none] ∧
      (applyStep cfgOneTurn (initialState cfgOneTurn) [0, 0]).winSequence =
        [none] := by
  refine ⟨by decide, ?_, by decide, by decide⟩
  rw [doApplyActions, if_pos (by decide : validActions cfgOneTurn [0, 0])]

/-- **C9 (amended).** Query operations (`Returns`, rendering,
`LegalActions`) are pure and never change state fields; a further
joint-action application on a terminal state of a legal run — though not
prevented by the state — preserves `winners` and the terminal phase, but
appends to `winSequence` and `jointActionHistory` (and updates points). -/
theorem post_terminal_preserves_winners (g : Config) (st : GState)
    (as : List ℤ) (hNT : 1 ≤ g.numTurns) (hr : Reachable g st)
    (hterm : st.terminal = true) (hv : validActions g as) :
    doApplyActions g st as = some (applyStep g st as) ∧
      (applyStep g st as).winners = st.winners ∧
      (applyStep g st as).terminal = true ∧
      (applyStep g st as).winSequence = st.winSequence ++ [winnerOfRound as] ∧
      (applyStep g st as).actionsHistory = st.actionsHistory ++ [as] := by
  have hturn : st.currentTurn = g.numTurns :=
    (reachable_terminal_iff hNT hr).mp hterm
  have hne : ¬ (st.currentTurn + 1 = g.numTurns) := by omega
  refine ⟨?_, ?_, ?_, rfl, rfl⟩
  · rw [doApplyActions, if_pos hv]
  · show (if st.currentTurn + 1 = g.numTurns then _ else st.winners) =
      st.winners
    rw [if_neg hne]
  · show (if st.currentTurn + 1 = g.numTurns then true else st.terminal) =
      true
    rw [if_neg hne, hterm]

/-- Witness for `post_terminal_preserves_winners`: the one-turn game's
terminal state, hit with one more joint action. -/
theorem post_terminal_preserves_winners_witness :
    (applyStep cfgOneTurn (applyStep cfgOneTurn (initialState cfgOneTurn)
        [0, 0]) [0, 0]).winners =
      (applyStep cfgOneTurn (initialState cfgOneTurn) [0, 0]).winners ∧
      (applyStep cfgOneTurn (applyStep cfgOneTurn (initialState cfgOneTurn)
        [0, 0]) [0, 0]).terminal = true := by
  have hreach : Reachable cfgOneTurn
      (applyStep cfgOneTurn (initialState cfgOneTurn) [0, 0]) :=
    Reachable.step Reachable.init rfl
      (by rw [doApplyActions, if_pos (by decide : validActions cfgOneTurn [0, 0])])
  have h := post_terminal_preserves_winners cfgOneTurn _ [0, 0] (by decide)
    hreach (by decide) (by decide)
  exact ⟨h.2.1, h.2.2.1⟩

/-- The default configuration with `imp_info = true`. -/
noncomputable def cfgDefaultImp : Config :=
  { defaultConfig with impInfo := true }

/-- **C10.** The declared information-state/observation tensor shape is the
single flat block `[numPlayers * numOptions]`, but the observers write
`numPlayers` entries for `point_totals` when public, plus
`numTurns * numPlayers` for `win_sequence` under imperfect info, plus
`numTurns * numOptions` for `player_action_sequence` for the
perfect-recall private observer; with the defaults and `imp_info = true`
the declared size is `30` while the information-state observer writes
`1702` entries. -/
theorem tensor_size_mismatch :
    (∀ (g : Config) (ot : IIGObsType),
      writtenSize g ot =
        (if ot.publicInfo then g.numPlayers else 0) +
          ((if g.impInfo && ot.publicInfo then g.numTurns * g.numPlayers
            else 0) +
            (if g.impInfo && ot.perfectRecall && ot.privateSingle then
              g.numTurns * g.numOptions else 0))) ∧
      (informationStateTensorShape cfgDefaultImp).prod = 30 ∧
      writtenSize cfgDefaultImp infoStateObsType = 1702 ∧
      (informationStateTensorShape cfgDefaultImp).prod ≠
        writtenSize cfgDefaultImp infoStateObsType := by
  refine ⟨?_, by decide, by decide, by decide⟩
  intro g ot
  rcases ot with ⟨pub, rec, priv⟩
  cases hg : g.impInfo <;> cases pub <;> cases rec <;> cases priv <;>
    simp [writtenSize, writeBlocks, hg, Nat.mul_comm]

end BertrandOligopoly
